import Mathlib

/-!
Verification of the task-runner program in `src/main.rs`.

Rust strings are modelled as `List Char` (their unicode scalar values); byte
positions, as used by `str::find` and by slice indexing, are recovered through
the UTF-8 byte length of each character.  Fallible operations (slice indexing
that would panic in Rust) return `Option`; `none` models a panic.
-/

namespace Tasks

/-- UTF-8 encoded length in bytes of one unicode scalar value. -/
def utf8Len (c : Char) : Nat :=
  if c.toNat < 0x80 then 1
  else if c.toNat < 0x800 then 2
  else if c.toNat < 0x10000 then 3
  else 4

/-- Byte length of a string, summing the UTF-8 lengths of its characters. -/
def byteLen : List Char → Nat
  | [] => 0
  | c :: cs => utf8Len c + byteLen cs

/-- `str::find(pattern: char)`: the byte index of the first occurrence of a
character, or `none` when the character does not occur. -/
def findByte (c : Char) : List Char → Option Nat
  | [] => none
  | x :: xs => if x = c then some 0 else (findByte c xs).map (fun i => utf8Len x + i)

/-- Drop the first `n` bytes of a string, as Rust slice indexing `s[n..]` does:
`none` models the panic when `n` is out of bounds or not on a character
boundary. -/
def dropBytes : List Char → Nat → Option (List Char)
  | l, 0 => some l
  | [], _ + 1 => none
  | x :: xs, n + 1 =>
    if utf8Len x ≤ n + 1 then dropBytes xs (n + 1 - utf8Len x) else none

/-- Take the first `n` bytes of a string; `none` models the panic when `n` is
out of bounds or not on a character boundary. -/
def takeBytes : List Char → Nat → Option (List Char)
  | _, 0 => some []
  | [], _ + 1 => none
  | x :: xs, n + 1 =>
    if utf8Len x ≤ n + 1 then (takeBytes xs (n + 1 - utf8Len x)).map (fun t => x :: t) else none

/-- Rust slice indexing `s[i..j]` by byte positions; `none` models the panic
when `i > j`, an index is out of bounds, or an index is not on a character
boundary. -/
def sliceRange (l : List Char) (i j : Nat) : Option (List Char) :=
  if i ≤ j then (dropBytes l i).bind (fun t => takeBytes t (j - i)) else none

/-- `str::starts_with` for a concrete needle of characters (all needles used by
the program are ASCII, so character-level comparison coincides with byte-level
comparison). -/
def startsWithChars (l p : List Char) : Bool :=
  l.take p.length = p

/-- `parse_command` from `src/main.rs` (lines 128-139): strip an optional
`[label]:` header.  The result is `(command, label)`; `none` for the whole
result models a panic, which the theorems below rule out.

Source:
`if value.starts_with('[') {`
`  if let Some(end_bracket) = value.find(']') {`
`    if value[end_bracket..].starts_with("]:") {`
`      let prefix = &value[1..end_bracket];`
`      let command = &value[end_bracket + 2..];`
`      return (command, Some(prefix)); } } }`
`(value, None)` -/
def parse_command (value : List Char) : Option (List Char × Option (List Char)) :=
  if value.head? = some '[' then
    match findByte ']' value with
    | some end_bracket =>
      match dropBytes value end_bracket with
      | none => none
      | some tail =>
        if startsWithChars tail [']', ':'] then
          match sliceRange value 1 end_bracket, dropBytes value (end_bracket + 2) with
          | some lab, some cmd => some (cmd, some lab)
          | _, _ => none
        else some (value, none)
    | none => some (value, none)
  else some (value, none)

/-- The Command Spec Parser contract in the words of the specification: if the
string starts with `[` and its first `]` is immediately followed by `:`, the
label is the substring between `[` and that `]` (possibly empty) and the
command is the substring after `]:`; otherwise the whole string is the command
and there is no label. -/
def parse_command_spec (value : List Char) : List Char × Option (List Char) :=
  if value.head? = some '[' then
    let rest := value.tail
    let after := rest.dropWhile (fun y => y != ']')
    if after.take 2 = [']', ':'] then (after.drop 2, some (rest.takeWhile (fun y => y != ']')))
    else (value, none)
  else (value, none)

/-! ### Line Reader and Output Writer (`command_print`, lines 164-180) -/

/-- The unicode White_Space property, as used by Rust `str::trim`. -/
def rustIsWhitespace (c : Char) : Bool :=
  (9 ≤ c.toNat && c.toNat ≤ 13) || c.toNat = 32 || c.toNat = 133 || c.toNat = 160 ||
    c.toNat = 5760 || (8192 ≤ c.toNat && c.toNat ≤ 8202) || c.toNat = 8232 ||
    c.toNat = 8233 || c.toNat = 8239 || c.toNat = 8287 || c.toNat = 12288

/-- Rust `str::trim`: removes leading and trailing whitespace. -/
def rustTrim (l : List Char) : List Char :=
  ((l.dropWhile rustIsWhitespace).reverse.dropWhile rustIsWhitespace).reverse

/-- `str::trim` lifted to `String`. -/
def rustTrimString (s : String) : String :=
  String.mk (rustTrim s.data)

/-- Removal of trailing whitespace only, following the wording of the
specification sentence `trim trailing whitespace`, for comparison with the
`line.trim()` call the code performs. -/
def trimEndSpec (l : List Char) : List Char :=
  (l.reverse.dropWhile rustIsWhitespace).reverse

/-- One `print!` call of `command_print`: `[label] ` header when a label was
passed, trimmed line, `\r\n` terminator (lines 170-176 of the source). -/
def emitLine (px : Option String) (chunk : String) : String :=
  match px with
  | some p => "[" ++ p ++ "] " ++ rustTrimString chunk ++ "\r\n"
  | none => rustTrimString chunk ++ "\r\n"

/-- What the underlying byte stream does once all its data chunks are
consumed: a closed pipe keeps answering `read_line = Ok(0)` forever, a broken
pipe answers with an I/O error. -/
inductive StreamEnd
  | eofForever
  | ioError
deriving DecidableEq

/-- Observable state of the `command_print` loop after a bounded number of
`read_line` calls: either the function has returned (the `while let` ended),
or it is still inside the loop; both carry the lines printed so far. -/
inductive LoopOutcome
  | returned (out : List String)
  | running (out : List String)
deriving DecidableEq

/-- The lines printed so far, whether or not the loop has ended. -/
def outputOf : LoopOutcome → List String
  | LoopOutcome.returned out => out
  | LoopOutcome.running out => out

/-- The `command_print` loop (lines 168-179), fuel-indexed: each unit of fuel
pays for one `read_line` call.  A stream is a finite list of chunks (the
successful reads, each one line) followed by a `StreamEnd` behavior.

Source: `while let Ok(n) = reader.read_line(&mut line).await {`
`if n > 0 { print!(...); line.clear(); } }` — note the loop body skips
`n == 0` reads but the loop itself continues on every `Ok`, ending only on
`Err`. -/
def commandPrintLoop (px : Option String) :
    Nat → List String → StreamEnd → List String → LoopOutcome
  | 0, _, _, acc => LoopOutcome.running acc.reverse
  | fuel + 1, chunk :: reads, fin, acc =>
    if 0 < chunk.length then commandPrintLoop px fuel reads fin (emitLine px chunk :: acc)
    else commandPrintLoop px fuel reads fin acc
  | fuel + 1, [], StreamEnd.eofForever, acc =>
    commandPrintLoop px fuel [] StreamEnd.eofForever acc
  | _ + 1, [], StreamEnd.ioError, acc => LoopOutcome.returned acc.reverse

/-- `command_print` on a whole stream, starting with nothing printed. -/
def commandPrint (px : Option String) (fuel : Nat) (reads : List String)
    (fin : StreamEnd) : LoopOutcome :=
  commandPrintLoop px fuel reads fin []

/-! ### Colors and the per-task output pipeline (`colorize`, `Task::start`) -/

/-- The palette of the `colored` crate calls used by `colorize`. -/
inductive TermColor
  | red
  | green
  | yellow
  | blue
  | magenta
  | cyan
deriving DecidableEq

/-- `colorize` (lines 150-160): cyclic color choice by task index modulo 6.
The ANSI escape bytes the `colored` crate wraps around the text are
abstracted away; the text itself is carried unchanged. -/
def colorize (s : String) (i : Nat) : TermColor × String :=
  match i % 6 with
  | 0 => (TermColor.red, s)
  | 1 => (TermColor.green, s)
  | 2 => (TermColor.yellow, s)
  | 3 => (TermColor.blue, s)
  | 4 => (TermColor.magenta, s)
  | _ => (TermColor.cyan, s)

/-- The parsed CLI arguments (struct `Args`, lines 20-31).  The field
`noPrefixFlag` models the `no_prefix` field (flag `--no-prefix`, documented in
the source as `Dont include prefix in output`). -/
structure Args where
  commands : List String
  noPrefixFlag : Bool
deriving DecidableEq

/-- The lines one output stream of task number `index` sends to the terminal,
as wired by `Task::start` (lines 96-111): parse the command string, colorize
the label when present, and hand the resulting optional header to
`command_print`.  Mirrors the source in never consulting the `no_prefix`
flag, which `main.rs` declares but never reads.  `none` models a panic of
`parse_command`. -/
def taskEmittedLines (args : Args) (index : Nat) (fuel : Nat) (reads : List String)
    (fin : StreamEnd) : Option LoopOutcome :=
  (parse_command ((args.commands.getD index "").data)).map (fun parsed =>
    let px := parsed.2.map (fun l => (colorize (String.mk l) index).2)
    commandPrint px fuel reads fin)

/-! ### Cancellation Broadcaster (`TaskControl`, lines 54-78)

`TaskControl` pairs an `AtomicBool` with a `tokio::sync::Notify`.  The model
keeps the flag and the list of waiters currently suspended inside
`notify.notified().await`.  `Notify::notify_waiters` wakes exactly the
waiters registered at the moment of the call and stores no permit for later
arrivals. -/

/-- State of the shared `TaskControl`. -/
structure CtrlState where
  stopped : Bool
  waiters : List Nat
deriving DecidableEq

/-- The two operations tasks and the interrupt handler perform on the shared
state: `stop` is `TaskControl::stop`; `beginWait id` is a task entering
`notify.notified().await` inside `is_stopped` — the source awaits the
notification before it ever loads the `stopped` flag (lines 73-77), so a
waiter registers unconditionally. -/
inductive CtrlEvent
  | stop
  | beginWait (id : Nat)
deriving DecidableEq

/-- `stop()` (lines 68-71): store `stopped = true`, then `notify_waiters`,
which wakes exactly the currently registered waiters.  Returns the new state
and the identifiers woken by this call. -/
def applyStop (s : CtrlState) : CtrlState × List Nat :=
  ({ stopped := true, waiters := [] }, s.waiters)

/-- A task entering `notify.notified().await`: it suspends and is recorded as
a waiter; nobody is woken. -/
def applyBeginWait (id : Nat) (s : CtrlState) : CtrlState × List Nat :=
  ({ s with waiters := s.waiters ++ [id] }, [])

/-- One event of an execution. -/
def applyEvent : CtrlEvent → CtrlState → CtrlState × List Nat
  | CtrlEvent.stop, s => applyStop s
  | CtrlEvent.beginWait id, s => applyBeginWait id s

/-- Run a sequence of events, collecting every waiter woken anywhere in the
execution.  A suspended `is_stopped` call returns exactly when its identifier
appears in that collection. -/
def runCtrl : CtrlState → List CtrlEvent → CtrlState × List Nat
  | s, [] => (s, [])
  | s, e :: es =>
    let p := applyEvent e s
    let q := runCtrl p.1 es
    (q.1, p.2 ++ q.2)

/-- `TaskControl::new()`: not stopped, nobody waiting. -/
def initControl : CtrlState :=
  { stopped := false, waiters := [] }

/-- Whether an event is a `stop()` call. -/
def isStopEvent : CtrlEvent → Bool
  | CtrlEvent.stop => true
  | CtrlEvent.beginWait _ => false

/-! ### The race inside `Task::start` (lines 113-124) -/

/-- The four futures of the `tokio::select!`: natural child exit
(`child.wait()`), the cancellation future (`stopped`), and the two
output-drain futures (`stdout_handle`, `stderr_handle`). -/
inductive RaceWinner
  | childExit
  | stopSignal
  | stdoutDone
  | stderrDone
deriving DecidableEq

/-- The value each `select!` arm assigns to `should_exit` in the source:
`true` only for the cancellation arm. -/
def should_exit : RaceWinner → Bool
  | RaceWinner.stopSignal => true
  | RaceWinner.childExit => false
  | RaceWinner.stdoutDone => false
  | RaceWinner.stderrDone => false

/-- One resolution of the race: which future completed first, whether the
child process was still running at that moment, and how each output stream
ends (used to tie drain completion to its only cause). -/
structure Scenario where
  winner : RaceWinner
  childRunning : Bool
  stdoutEnd : StreamEnd
  stderrEnd : StreamEnd
deriving DecidableEq

/-- Reachability constraints on a resolution, each forced by the source:
`child.wait()` completes only when the child has exited, and a drain future
completes only when its stream errors (`command_print` returns only when a
`read_line` yields `Err` — see `command_print_eof_never_returns`). -/
def validScenario (sc : Scenario) : Prop :=
  (sc.winner = RaceWinner.childExit → sc.childRunning = false) ∧
    (sc.winner = RaceWinner.stdoutDone → sc.stdoutEnd = StreamEnd.ioError) ∧
    (sc.winner = RaceWinner.stderrDone → sc.stderrEnd = StreamEnd.ioError)

instance (sc : Scenario) : Decidable (validScenario sc) := by
  unfold validScenario; infer_instance

/-- What `Task::start` has done by the time it returns. -/
structure StartOutcome where
  killed : Bool
  childExitedAtReturn : Bool
deriving DecidableEq

/-- The tail of `Task::start` (lines 115-124): bind `should_exit` from the
winning arm; when it is `true`, `child.kill().await` terminates and reaps the
child before the function returns; otherwise the child state is whatever the
scenario says it was. -/
def taskStart (sc : Scenario) : StartOutcome :=
  if should_exit sc.winner then { killed := true, childExitedAtReturn := true }
  else { killed := false, childExitedAtReturn := !sc.childRunning }

/-! ### Error reporting in `main` (lines 46-51) -/

/-- `Result<(), std::io::Error>` returned by `Task::start`: spawn, pipe, or
kill failures surface here. -/
inductive TaskResult
  | ok
  | ioErr (msg : String)
deriving DecidableEq

/-- What `join_all` hands back for one spawned task: the task ran to its end
with a `TaskResult`, or the task itself panicked (`JoinError`). -/
inductive JoinResult
  | joined (r : TaskResult)
  | panicked (msg : String)
deriving DecidableEq

/-- The reporting loop of `main`:
`for result in results { if let Err(e) = result { eprintln!("Task error: ...") } }`.
Only the outer `Result` (the `JoinError`) is matched; a `JoinResult.joined`
value is never printed, whatever `TaskResult` it carries. -/
def mainReport (results : List JoinResult) : List String :=
  results.filterMap (fun r =>
    match r with
    | JoinResult.panicked e => some ("Task error: " ++ e)
    | JoinResult.joined _ => none)

/-! ### Helper lemmas on the byte-level string model -/

theorem utf8Len_pos (c : Char) : 0 < utf8Len c := by
  unfold utf8Len
  split
  · exact Nat.one_pos
  · split
    · exact Nat.zero_lt_two
    · split
      · exact Nat.zero_lt_succ 2
      · exact Nat.zero_lt_succ 3

theorem byteLen_append (l₁ l₂ : List Char) : byteLen (l₁ ++ l₂) = byteLen l₁ + byteLen l₂ := by
  induction l₁ with
  | nil => simp [byteLen]
  | cons x xs ih => simp [byteLen, ih, Nat.add_assoc]

theorem dropBytes_byteLen (pre suf : List Char) :
    dropBytes (pre ++ suf) (byteLen pre) = some suf := by
  induction pre with
  | nil => simp only [List.nil_append, byteLen]; rw [dropBytes]
  | cons x xs ih =>
    have hx := utf8Len_pos x
    obtain ⟨m, hm⟩ : ∃ m, utf8Len x + byteLen xs = m + 1 :=
      ⟨utf8Len x + byteLen xs - 1, by omega⟩
    show dropBytes (x :: (xs ++ suf)) (utf8Len x + byteLen xs) = some suf
    rw [hm, dropBytes]
    rw [if_pos (by omega)]
    have harg : m + 1 - utf8Len x = byteLen xs := by omega
    rw [harg]
    exact ih

theorem takeBytes_byteLen (pre suf : List Char) :
    takeBytes (pre ++ suf) (byteLen pre) = some pre := by
  induction pre with
  | nil => simp only [List.nil_append, byteLen]; rw [takeBytes]
  | cons x xs ih =>
    have hx := utf8Len_pos x
    obtain ⟨m, hm⟩ : ∃ m, utf8Len x + byteLen xs = m + 1 :=
      ⟨utf8Len x + byteLen xs - 1, by omega⟩
    show takeBytes (x :: (xs ++ suf)) (utf8Len x + byteLen xs) = some (x :: xs)
    rw [hm, takeBytes]
    rw [if_pos (by omega)]
    have harg : m + 1 - utf8Len x = byteLen xs := by omega
    rw [harg, ih]
    rfl

theorem findByte_of_dropWhile_nil (c : Char) (l : List Char)
    (h : l.dropWhile (fun y => y != c) = []) : findByte c l = none := by
  induction l with
  | nil => rfl
  | cons x xs ih =>
    rw [List.dropWhile_cons] at h
    by_cases hx : x = c
    · simp [hx] at h
    · have hb : (x != c) = true := bne_iff_ne.mpr hx
      rw [if_pos hb] at h
      simp [findByte, hx, ih h]

theorem findByte_of_dropWhile_cons (c : Char) (l t : List Char)
    (h : l.dropWhile (fun y => y != c) = c :: t) :
    findByte c l = some (byteLen (l.takeWhile (fun y => y != c))) := by
  induction l with
  | nil => simp at h
  | cons x xs ih =>
    rw [List.dropWhile_cons] at h
    by_cases hx : x = c
    · subst hx
      simp [findByte, List.takeWhile_cons, byteLen]
    · have hb : (x != c) = true := bne_iff_ne.mpr hx
      rw [if_pos hb] at h
      rw [List.takeWhile_cons, if_pos hb]
      simp [findByte, hx, byteLen, ih h]

theorem dropWhile_ne_head (c : Char) (l : List Char) (y : Char) (t : List Char)
    (h : l.dropWhile (fun z => z != c) = y :: t) : y = c := by
  induction l with
  | nil => simp at h
  | cons x xs ih =>
    rw [List.dropWhile_cons] at h
    by_cases hx : x = c
    · subst hx
      simp at h
      exact h.1.symm
    · have hb : (x != c) = true := bne_iff_ne.mpr hx
      rw [if_pos hb] at h
      exact ih h

theorem takeWhile_all_holds (p : Char → Bool) (l : List Char) :
    (l.takeWhile p).all p = true := by
  induction l with
  | nil => rfl
  | cons x xs ih =>
    rw [List.takeWhile_cons]
    by_cases hx : p x = true
    · simp [hx, ih]
    · simp [hx]

theorem parse_command_eq_spec (v : List Char) :
    parse_command v = some (parse_command_spec v) := by
  cases v with
  | nil => rfl
  | cons a rest =>
    by_cases ha : a = '['
    · subst ha
      cases hdw : rest.dropWhile (fun y => y != ']') with
      | nil =>
        have hf : findByte ']' ('[' :: rest) = none := by
          have h1 : ('[' : Char) ≠ ']' := by decide
          simp [findByte, h1, findByte_of_dropWhile_nil ']' rest hdw]
        simp [parse_command, parse_command_spec, hf, hdw]
      | cons y t =>
        have hy : y = ']' := dropWhile_ne_head ']' rest y t hdw
        subst hy
        have hsplit : rest.takeWhile (fun z => z != ']') ++ ']' :: t = rest := by
          rw [← hdw]
          exact List.takeWhile_append_dropWhile (fun z => z != ']') rest
        set pre := rest.takeWhile (fun z => z != ']') with hpre
        have hone : utf8Len '[' = 1 := by decide
        have hf : findByte ']' ('[' :: rest) = some (1 + byteLen pre) := by
          have h1 : ('[' : Char) ≠ ']' := by decide
          have h2 := findByte_of_dropWhile_cons ']' rest t hdw
          simp [findByte, h1, h2, hone, hpre]
        have hcons : ('[' :: rest) = ('[' :: pre) ++ (']' :: t) := by
          rw [List.cons_append, hsplit]
        have hblen : byteLen ('[' :: pre) = 1 + byteLen pre := by
          rw [byteLen, hone]
        have hdrop : dropBytes ('[' :: rest) (1 + byteLen pre) = some (']' :: t) := by
          rw [hcons, ← hblen]
          exact dropBytes_byteLen ('[' :: pre) (']' :: t)
        cases t with
        | nil =>
          have hsw : startsWithChars (']' :: []) [']', ':'] = false := by decide
          simp [parse_command, parse_command_spec, hf, hdrop, hdw, hsw]
        | cons b bs =>
          by_cases hb : b = ':'
          · subst hb
            have hsw : startsWithChars (']' :: ':' :: bs) [']', ':'] = true := by
              simp [startsWithChars]
            have hdrop1 : dropBytes ('[' :: rest) 1 = some rest := by
              have h := dropBytes_byteLen ['['] rest
              simpa [byteLen, hone] using h
            have htake : takeBytes rest (byteLen pre) = some pre := by
              have h := takeBytes_byteLen pre (']' :: ':' :: bs)
              rw [hsplit] at h
              exact h
            have hslice : sliceRange ('[' :: rest) 1 (1 + byteLen pre) = some pre := by
              rw [sliceRange, if_pos (by omega)]
              rw [hdrop1]
              simpa using htake
            have hcons2 : ('[' :: rest) = ('[' :: (pre ++ [']', ':'])) ++ bs := by
              rw [List.cons_append, List.append_assoc]
              simp [hsplit]
            have hblen2 : byteLen ('[' :: (pre ++ [']', ':'])) = 1 + byteLen pre + 2 := by
              rw [byteLen, hone, byteLen_append]
              have : byteLen [']', ':'] = 2 := by decide
              rw [this]
              omega
            have hdrop2 : dropBytes ('[' :: rest) (1 + byteLen pre + 2) = some bs := by
              rw [hcons2, ← hblen2]
              exact dropBytes_byteLen ('[' :: (pre ++ [']', ':'])) bs
            simp [parse_command, parse_command_spec, hf, hdrop, hdw, hsw, hslice, hdrop2]
          · have hsw : startsWithChars (']' :: b :: bs) [']', ':'] = false := by
              simp [startsWithChars, hb]
            have htk : (']' :: b :: bs).take 2 ≠ [']', ':'] := by
              simp [hb]
            simp [parse_command, parse_command_spec, hf, hdrop, hdw, hsw, htk, hb]
    · have hh : ¬ ((a :: rest).head? = some ('[' : Char)) := by simp [ha]
      simp [parse_command, parse_command_spec, hh, ha]

theorem parse_command_spec_some (v cmd l : List Char)
    (h : parse_command_spec v = (cmd, some l)) :
    v = '[' :: (l ++ ']' :: ':' :: cmd) ∧ l.all (fun y => y != ']') = true := by
  unfold parse_command_spec at h
  by_cases hh : v.head? = some '['
  · rw [if_pos hh] at h
    simp only at h
    by_cases ht : (v.tail.dropWhile (fun y => y != ']')).take 2 = [']', ':']
    · rw [if_pos ht] at h
      have hcmd : (v.tail.dropWhile (fun y => y != ']')).drop 2 = cmd := congrArg Prod.fst h
      have hl : v.tail.takeWhile (fun y => y != ']') = l := by
        have := congrArg Prod.snd h
        simpa using this
      obtain ⟨t, rfl⟩ : ∃ t, v = '[' :: t := by
        cases v with
        | nil => simp at hh
        | cons a t =>
          simp at hh
          exact ⟨t, by rw [hh]⟩
      refine ⟨?_, ?_⟩
      · have h1 : t.takeWhile (fun y => y != ']') ++ t.dropWhile (fun y => y != ']') = t :=
          List.takeWhile_append_dropWhile (fun y => y != ']') t
        have h2 : (t.dropWhile (fun y => y != ']')).take 2 ++
            (t.dropWhile (fun y => y != ']')).drop 2 = t.dropWhile (fun y => y != ']') :=
          List.take_append_drop 2 (t.dropWhile (fun y => y != ']'))
        simp only [List.tail_cons] at hcmd hl ht
        rw [← h1, ← h2, ht, hcmd, hl]
        simp
      · rw [← hl]
        simp only [List.tail_cons]
        exact takeWhile_all_holds _ t
    · rw [if_neg ht] at h
      simp at h
  · rw [if_neg hh] at h
    simp at h

theorem parse_command_spec_none (v cmd : List Char)
    (h : parse_command_spec v = (cmd, none)) : cmd = v := by
  unfold parse_command_spec at h
  by_cases hh : v.head? = some '['
  · rw [if_pos hh] at h
    simp only at h
    by_cases ht : (v.tail.dropWhile (fun y => y != ']')).take 2 = [']', ':']
    · rw [if_pos ht] at h
      simp at h
    · rw [if_neg ht] at h
      exact (congrArg Prod.fst h).symm
  · rw [if_neg hh] at h
    exact (congrArg Prod.fst h).symm

/-! ### Helper lemmas on the `command_print` loop -/

theorem commandPrintLoop_eof (px : Option String) :
    ∀ (fuel : Nat) (acc : List String),
      commandPrintLoop px fuel [] StreamEnd.eofForever acc = LoopOutcome.running acc.reverse := by
  intro fuel
  induction fuel with
  | zero => intro acc; rfl
  | succ f ih =>
    intro acc
    rw [commandPrintLoop]
    exact ih acc

theorem commandPrintLoop_out (px : Option String) :
    ∀ (reads : List String) (fuel : Nat) (fin : StreamEnd) (acc : List String),
      reads.length < fuel →
      outputOf (commandPrintLoop px fuel reads fin acc) =
        acc.reverse ++ (reads.filter (fun c => decide (0 < c.length))).map (emitLine px) := by
  intro reads
  induction reads with
  | nil =>
    intro fuel fin acc hf
    obtain ⟨f, rfl⟩ : ∃ f, fuel = f + 1 := ⟨fuel - 1, by omega⟩
    cases fin with
    | eofForever =>
      rw [commandPrintLoop_eof]
      simp [outputOf]
    | ioError => simp [commandPrintLoop, outputOf]
  | cons chunk rest ih =>
    intro fuel fin acc hf
    obtain ⟨f, rfl⟩ : ∃ f, fuel = f + 1 := ⟨fuel - 1, by omega⟩
    have hr : rest.length < f := by
      simp only [List.length_cons] at hf
      omega
    by_cases hc : 0 < chunk.length
    · rw [commandPrintLoop, if_pos hc, ih f fin (emitLine px chunk :: acc) hr]
      simp [List.filter_cons, hc]
    · rw [commandPrintLoop, if_neg hc, ih f fin acc hr]
      simp [List.filter_cons, hc]

/-! ### Helper lemma on the Cancellation Broadcaster model -/

theorem runCtrl_no_stop_no_wake :
    ∀ (evs : List CtrlEvent) (s : CtrlState), (∀ e ∈ evs, e ≠ CtrlEvent.stop) →
      (runCtrl s evs).2 = [] := by
  intro evs
  induction evs with
  | nil => intro s _; rfl
  | cons e es ih =>
    intro s h
    have he : e ≠ CtrlEvent.stop := h e (List.mem_cons_self e es)
    cases e with
    | stop => exact absurd rfl he
    | beginWait id =>
      rw [runCtrl]
      simp only [applyEvent, applyBeginWait]
      simpa using ih _ (fun x hx => h x (List.mem_cons_of_mem _ hx))

/-! ### Claim theorems -/

/-- Claim C1, code-bug evidence.  The claim states the late-waiter property:
after `stop()` has been called, a subsequent `waitForStop()` (`is_stopped`)
returns promptly.  In the model taken from the source, `is_stopped` first
awaits `notify.notified()` and `notify_waiters` wakes only the waiters
registered at the moment of the call, storing no permit: a waiter that
registers after the `stop()` is never woken in any continuation of the
execution that contains no further `stop()` call, so the late `is_stopped`
call blocks indefinitely. -/
theorem stop_then_wait_blocks (tail : List CtrlEvent)
    (h : ∀ e ∈ tail, e ≠ CtrlEvent.stop) :
    0 ∉ (runCtrl initControl (CtrlEvent.stop :: CtrlEvent.beginWait 0 :: tail)).2 := by
  have h2 : (runCtrl { stopped := true, waiters := [0] } tail).2 = [] :=
    runCtrl_no_stop_no_wake tail { stopped := true, waiters := [0] } h
  simp [runCtrl, applyEvent, applyStop, applyBeginWait, initControl, h2]

/-- Witness for `stop_then_wait_blocks` at a concrete continuation. -/
theorem stop_then_wait_blocks_witness :
    0 ∉ (runCtrl initControl
      (CtrlEvent.stop :: CtrlEvent.beginWait 0 :: [CtrlEvent.beginWait 1])).2 :=
  stop_then_wait_blocks [CtrlEvent.beginWait 1] (by decide)

/-- Claim C2, counterexample.  The `select!` in `Task::start` races four
futures, not two: when the stdout drain future completes first (reachable,
since `command_print` returns exactly when a pipe read errors) while the
child is still running, the winning arm yields `should_exit = false`, no kill
is attempted, and `Task::start` returns although the child has not exited —
against the claim that it returns only once the child has fully exited and
completes its race only on natural exit or cancellation. -/
theorem task_start_drain_first_counterexample :
    validScenario
        ⟨RaceWinner.stdoutDone, true, StreamEnd.ioError, StreamEnd.eofForever⟩ ∧
      (taskStart
        ⟨RaceWinner.stdoutDone, true, StreamEnd.ioError,
          StreamEnd.eofForever⟩).childExitedAtReturn = false ∧
      (taskStart
        ⟨RaceWinner.stdoutDone, true, StreamEnd.ioError,
          StreamEnd.eofForever⟩).killed = false := by
  refine ⟨by decide, rfl, rfl⟩

/-- Claim C2, amended.  For every reachable resolution of the four-way race in
`Task::start`: the child is killed exactly when the cancellation future won;
and on return the child has exited exactly when the cancellation future won or
the child had already exited — in particular natural exit first means no
termination action, while a drain future finishing first (a pipe read error)
lets `Task::start` return with no kill and possibly a still-running child. -/
theorem task_start_race_behavior (sc : Scenario) (h : validScenario sc) :
    ((taskStart sc).killed = true ↔ sc.winner = RaceWinner.stopSignal) ∧
      ((taskStart sc).childExitedAtReturn = true ↔
        (sc.winner = RaceWinner.stopSignal ∨ sc.childRunning = false)) := by
  obtain ⟨w, cr, so, se⟩ := sc
  cases w <;> cases cr <;> simp_all [taskStart, should_exit, validScenario]

/-- Witness for `task_start_race_behavior` at the natural-exit resolution. -/
theorem task_start_race_behavior_witness :
    ((taskStart
        ⟨RaceWinner.childExit, false, StreamEnd.eofForever,
          StreamEnd.eofForever⟩).killed = true ↔
      RaceWinner.childExit = RaceWinner.stopSignal) ∧
      ((taskStart
        ⟨RaceWinner.childExit, false, StreamEnd.eofForever,
          StreamEnd.eofForever⟩).childExitedAtReturn = true ↔
        (RaceWinner.childExit = RaceWinner.stopSignal ∨ false = false)) :=
  task_start_race_behavior
    ⟨RaceWinner.childExit, false, StreamEnd.eofForever, StreamEnd.eofForever⟩ (by decide)

/-- Claim C3, code-bug evidence.  The claim states the `command_print` loop
terminates when the stream reports end-of-input (a successful read of zero
bytes).  In the code, `while let Ok(n)` treats `Ok(0)` as one more successful
read and loops again, so on a stream at end-of-input the loop never returns:
for every number of `read_line` calls it is still running, with no output. -/
theorem command_print_eof_never_returns (px : Option String) (fuel : Nat) :
    commandPrint px fuel [] StreamEnd.eofForever = LoopOutcome.running [] := by
  rw [commandPrint, commandPrintLoop_eof]
  rfl

/-- Claim C4, code-bug evidence.  The claim states that setting the no-prefix
flag disables prefix rendering.  The source never reads the `no_prefix` field,
so with the flag set and command `[x]:echo hello` the emitted line is still
`[x] hello` followed by `\r\n`, not the unprefixed form the claim requires. -/
theorem output_tagged_despite_flag :
    taskEmittedLines { commands := ["[x]:echo hello"], noPrefixFlag := true } 0 2
        ["hello\n"] StreamEnd.ioError = some (LoopOutcome.returned ["[x] hello\r\n"]) ∧
      ("[x] hello\r\n" : String) ≠ "hello\r\n" :=
  ⟨by decide, by decide⟩

/-- Claim C5, counterexample.  The claim says the Output Writer trims trailing
whitespace; the code calls `line.trim()`, which also trims leading
whitespace: for the line `  hello` (leading spaces) the code emits
`hello\r\n`, not the `  hello\r\n` the claim prescribes. -/
theorem command_print_trim_counterexample :
    commandPrint none 2 ["  hello\n"] StreamEnd.ioError =
        LoopOutcome.returned ["hello\r\n"] ∧
      ("hello\r\n" : String) ≠ String.mk (trimEndSpec ("  hello\n").data) ++ "\r\n" :=
  ⟨by decide, by decide⟩

/-- Claim C5, amended.  For every completed input line, the Output Writer
trims leading and trailing whitespace and emits the line exactly once in
carriage-return-terminated form, prefixed with `[label] ` when a label exists
and unprefixed otherwise, in the order the lines were produced. -/
theorem command_print_output_shape (p : String) (reads : List String) (fin : StreamEnd)
    (fuel : Nat) (h : reads.length < fuel) :
    outputOf (commandPrint (some p) fuel reads fin) =
        (reads.filter (fun c => decide (0 < c.length))).map
          (fun c => "[" ++ p ++ "] " ++ rustTrimString c ++ "\r\n") ∧
      outputOf (commandPrint none fuel reads fin) =
        (reads.filter (fun c => decide (0 < c.length))).map
          (fun c => rustTrimString c ++ "\r\n") := by
  constructor
  · rw [commandPrint, commandPrintLoop_out (some p) reads fuel fin [] h]
    simp [emitLine]
  · rw [commandPrint, commandPrintLoop_out none reads fuel fin [] h]
    simp [emitLine]

/-- Witness for `command_print_output_shape`: the hello-world example of the
specification, label `x`, produces `[x] hello` then `[x] world`, in order. -/
theorem command_print_output_shape_witness :
    outputOf (commandPrint (some "x") 3 ["hello\n", "world\n"] StreamEnd.ioError) =
      ["[x] hello\r\n", "[x] world\r\n"] := by
  have h := (command_print_output_shape "x" ["hello\n", "world\n"] StreamEnd.ioError 3
    (by decide)).1
  rw [h]
  decide

/-- Claim C6, confirmed.  `parse_command` agrees everywhere with the claimed
contract: when the string starts with `[` and its first `]` is immediately
followed by `:`, the label is the (possibly empty) substring between the
brackets and the command the substring after `]:`; otherwise the whole string
is returned verbatim with no label and no error — including the three example
inputs of the specification. -/
theorem parse_command_matches_claim :
    (∀ v : List Char, parse_command v = some (parse_command_spec v)) ∧
      parse_command ("[web]:npm start".data) =
        some (("npm start".data, some ("web".data))) ∧
      parse_command ("npm start".data) = some (("npm start".data, none)) ∧
      parse_command ("[bad:cmd".data) = some (("[bad:cmd".data, none)) :=
  ⟨parse_command_eq_spec, by decide, by decide, by decide⟩

/-- Claim C7, code-bug evidence.  The claim states a per-task spawn failure is
printed.  The reporting loop of `main` matches only the outer join result, so
a task that finished with an I/O error (spawn failure) produces no output at
all: with one failed and one successful task, nothing is printed. -/
theorem main_report_drops_task_failures :
    mainReport [JoinResult.joined (TaskResult.ioErr "No such file or directory (os error 2)"),
      JoinResult.joined TaskResult.ok] = [] :=
  rfl

/-- Claim C8, confirmed.  Calling `stop()` twice leaves `stopped == true`, the
second call wakes no further waiter (nothing to double-notify, the first call
emptied the wait set), and no operation ever resets the `stopped` flag: after
any event the flag is the old flag joined with whether the event was a
`stop()`. -/
theorem stop_idempotent_monotonic (s : CtrlState) (e : CtrlEvent) :
    (applyStop (applyStop s).1).1.stopped = true ∧
      (applyStop (applyStop s).1).2 = [] ∧
      (applyEvent e s).1.stopped = (s.stopped || isStopEvent e) := by
  refine ⟨rfl, rfl, ?_⟩
  cases e with
  | stop => simp [applyEvent, applyStop, isStopEvent]
  | beginWait id => simp [applyEvent, applyBeginWait, isStopEvent]

/-- Claim C9, confirmed.  Round-trip reconstruction: when `parse_command`
returns a label, the input was exactly `[` ++ label ++ `]:` ++ command and the
label contains no `]`; when it returns no label, the command is the input
verbatim. -/
theorem parse_command_roundtrip (v cmd : List Char) (lab : Option (List Char))
    (h : parse_command v = some (cmd, lab)) :
    (∀ l : List Char, lab = some l →
      v = '[' :: (l ++ ']' :: ':' :: cmd) ∧ l.all (fun y => y != ']') = true) ∧
      (lab = none → cmd = v) := by
  rw [parse_command_eq_spec v] at h
  injection h with hs
  constructor
  · intro l hl
    rw [hl] at hs
    exact parse_command_spec_some v cmd l hs
  · intro hn
    rw [hn] at hs
    exact parse_command_spec_none v cmd hs

/-- Witness for `parse_command_roundtrip` at the input `[web]:npm start`. -/
theorem parse_command_roundtrip_witness :
    ("[web]:npm start".data : List Char) =
        '[' :: ("web".data ++ ']' :: ':' :: "npm start".data) ∧
      ("web".data).all (fun y => y != ']') = true :=
  (parse_command_roundtrip ("[web]:npm start".data) ("npm start".data)
    (some ("web".data)) (by decide)).1 ("web".data) rfl

/-- Claim C10, confirmed.  `parse_command` is total on every unicode input:
no slice index it uses is out of bounds or off a character boundary, so the
panic case of the model never happens. -/
theorem parse_command_never_panics (v : List Char) : (parse_command v).isSome = true := by
  rw [parse_command_eq_spec v]
  rfl

end Tasks
